import Mathlib

/- Verification development for the microbity audio pipeline.

   The definitions below are shallow embeddings of the Rust sources:
   - src/app/midi_player.rs : track-merge scheduler (Tracks), voice table
     (notes array), note event handlers, and per-channel PWM update.
   - src/app/tone_generator.rs : waveform synthesis (NoteGen) and the
     double-buffer seqend interrupt handler.
   - src/app/pcm_player.rs : the PWM0 buffer-completion interrupt handler.

   Machine integers are modelled as Nat with explicit reduction mod 2^32
   where the source relies on u32 arithmetic.  Fallible operations
   (Option::unwrap, assert!) are modelled with Option results, none
   standing for a panic.  The f32 pitch computations of the sources are
   idealized exactly, carrying the literal f32 constants of the code as
   explicit numerator / denominator pairs of natural numbers. -/

namespace Microbity

/-- Modulus of u32 arithmetic. -/
def U32 : Nat := 2 ^ 32

/-- Value of u32::MAX, the initial value of earliest_tick in
Tracks::update_next_track. -/
def U32MAX : Nat := U32 - 1

/-- Maximum number of tracks read from the MIDI file
(midi_player.rs, const MAX_TRACKS: usize = 3). -/
def MAX_TRACKS : Nat := 3

/-- Midi channel-voice messages as far as the player distinguishes them
(midly::MidiMessage restricted to the patterns matched in
AppState::handle_midi_event). -/
inductive MidiMessage where
  | NoteOn (key vel : Nat)
  | NoteOff (key vel : Nat)
  | OtherMessage
deriving DecidableEq, Repr

/-- Kinds of track events: a MIDI channel event or anything else
(meta / sysex), which the scheduler skips. -/
inductive TrackEventKind where
  | Midi (channel : Nat) (message : MidiMessage)
  | NonMidi
deriving DecidableEq, Repr

/-- A track event: delta ticks since the previous event on the same
track, plus its kind (midly::TrackEvent). -/
structure TrackEvent where
  delta : Nat
  kind : TrackEventKind
deriving DecidableEq, Repr

/-- Result of Tracks::next_midi_event (enum NextEvent in
midi_player.rs). -/
inductive NextEvent where
  | Event (e : TrackEvent)
  | Finished
  | Pending
deriving DecidableEq, Repr

/-- State of the track-merge scheduler (struct Tracks in midi_player.rs).
The lazy EventIter of each track is modelled by the list of its not yet
read events. -/
structure Tracks where
  tracks : List (List TrackEvent)
  next_event : List (Option TrackEvent)
  ticks : List Nat
  next_track : Option (Nat × Nat)
deriving DecidableEq, Repr

/-- Absolute tick at which track i's pending event fires:
ticks[i] + delta with u32 wrap-around, or none if the track is
exhausted. -/
def pendTick (ne : List (Option TrackEvent)) (tks : List Nat) (i : Nat) :
    Option Nat :=
  (ne.getD i none).map fun e => (tks.getD i 0 + e.delta) % U32

/-- The scan loop of Tracks::update_next_track: walk the track indices
in order, keeping the running (earliest_tick, earliest_track) pair.  A
track whose event tick is less than OR EQUAL to the running minimum
replaces it (the source compares with a non-strict inequality). -/
def selectTrack (ne : List (Option TrackEvent)) (tks : List Nat) :
    List Nat → Nat × Option Nat → Nat × Option Nat
  | [], best => best
  | i :: rest, best =>
    match ne.getD i none with
    | none => selectTrack ne tks rest best
    | some e =>
      if (tks.getD i 0 + e.delta) % U32 ≤ best.1 then
        selectTrack ne tks rest ((tks.getD i 0 + e.delta) % U32, some i)
      else selectTrack ne tks rest best

/-- Tracks::update_next_track: recompute the cached (track, tick) pair
of the globally earliest pending event. -/
def Tracks.update_next_track (s : Tracks) : Tracks :=
  let r := selectTrack s.next_event s.ticks
    (List.range s.tracks.length) (U32MAX, none)
  { s with next_track := r.2.map fun i => (i, r.1) }

/-- Tracks::next_event: pop the cached earliest pending event, advance
that track's iterator, record the track's new absolute tick, and
recompute the cache.  none models both the early return (no cached
track) and the panic of the unwrap when the cache is inconsistent. -/
def Tracks.nextEv (s : Tracks) : Option (TrackEvent × Tracks) :=
  match s.next_track with
  | none => none
  | some (i, tk) =>
    match s.next_event.getD i none with
    | none => none
    | some event =>
      some (event, Tracks.update_next_track
        { tracks := s.tracks.set i ((s.tracks.getD i []).tail)
          next_event := s.next_event.set i ((s.tracks.getD i []).head?)
          ticks := s.ticks.set i tk
          next_track := none })

/-- Total number of events still held by the scheduler; an upper bound
on the number of iterations of the loop in Tracks::next_midi_event. -/
def Tracks.size (s : Tracks) : Nat :=
  (s.next_event.map fun o => o.elim 0 fun _ => 1).sum
  + (s.tracks.map List.length).sum

/-- Fuel-indexed body of the loop in Tracks::next_midi_event.  Each
iteration either returns (Finished when no event is pending, Pending
when the earliest pending tick exceeds the requested tick, Event for a
popped MIDI event) or pops and discards a non-MIDI event and loops.
The outer none models a panic of the unwrap on next_event(). -/
def nextMidiEventAux : Nat → Tracks → Nat → Option (NextEvent × Tracks)
  | 0, _, _ => none
  | fuel + 1, s, tick =>
    match s.next_track with
    | none => some (.Finished, s)
    | some (_, next_tick) =>
      if tick < next_tick then some (.Pending, s)
      else
        match s.nextEv with
        | none => none
        | some (event, s1) =>
          match event.kind with
          | .Midi _ _ => some (.Event event, s1)
          | .NonMidi => nextMidiEventAux fuel s1 tick

/-- Tracks::next_midi_event.  Every successful pop strictly decreases
Tracks.size, so size + 1 units of fuel always suffice and the fuel
never runs out before the loop returns. -/
def Tracks.next_midi_event (s : Tracks) (tick : Nat) :
    Option (NextEvent × Tracks) :=
  nextMidiEventAux (s.size + 1) s tick

/-- The cached next_track is consistent with the pending-event array
(the invariant Tracks::update_next_track establishes). -/
def WF (s : Tracks) : Prop :=
  s.next_track = (Tracks.update_next_track s).next_track

instance (s : Tracks) : Decidable (WF s) := by
  unfold WF; infer_instance

/-- Tracks::new: read at most MAX_TRACKS tracks from the parsed file,
priming each track's pending event with its first event. -/
def Tracks.new (tl : List (List TrackEvent)) : Tracks :=
  { tracks := (tl.take MAX_TRACKS).map List.tail
    next_event :=
      (List.range MAX_TRACKS).map fun i => ((tl.take MAX_TRACKS).getD i []).head?
    ticks := List.replicate MAX_TRACKS 0
    next_track := none }

/-! Specification lemmas for the selection scan of
Tracks::update_next_track. -/

/-- Unfolding pendTick on an exhausted track. -/
theorem pendTick_of_none {ne : List (Option TrackEvent)} {tks : List Nat}
    {j : Nat} (h : ne.getD j none = none) : pendTick ne tks j = none := by
  unfold pendTick
  rw [h]
  rfl

/-- Unfolding pendTick on a track with a pending event. -/
theorem pendTick_of_some {ne : List (Option TrackEvent)} (tks : List Nat)
    {j : Nat} {e : TrackEvent} (h : ne.getD j none = some e) :
    pendTick ne tks j = some ((tks.getD j 0 + e.delta) % U32) := by
  unfold pendTick
  rw [h]
  rfl

/-- Equation lemma: scan of the empty index list. -/
theorem selectTrack_nil (ne : List (Option TrackEvent)) (tks : List Nat)
    (best : Nat × Option Nat) : selectTrack ne tks [] best = best := rfl

/-- Equation lemma: the scan skips an exhausted track. -/
theorem selectTrack_cons_none {ne : List (Option TrackEvent)} {tks : List Nat}
    {i : Nat} (rest : List Nat) (best : Nat × Option Nat)
    (h : ne.getD i none = none) :
    selectTrack ne tks (i :: rest) best = selectTrack ne tks rest best := by
  conv_lhs => rw [selectTrack]
  rw [h]

/-- Equation lemma: the scan compares a pending track against the
running minimum. -/
theorem selectTrack_cons_some {ne : List (Option TrackEvent)} {tks : List Nat}
    {i : Nat} {e : TrackEvent} (rest : List Nat) (best : Nat × Option Nat)
    (h : ne.getD i none = some e) :
    selectTrack ne tks (i :: rest) best =
      if (tks.getD i 0 + e.delta) % U32 ≤ best.1 then
        selectTrack ne tks rest ((tks.getD i 0 + e.delta) % U32, some i)
      else selectTrack ne tks rest best := by
  conv_lhs => rw [selectTrack]
  rw [h]

/-- The running minimum never increases along the scan. -/
theorem sel_fst_le (ne : List (Option TrackEvent)) (tks : List Nat) :
    ∀ (idxs : List Nat) (best : Nat × Option Nat),
      (selectTrack ne tks idxs best).1 ≤ best.1 := by
  intro idxs
  induction idxs with
  | nil => intro best; rw [selectTrack_nil]
  | cons i rest ih =>
    intro best
    cases h : ne.getD i none with
    | none => rw [selectTrack_cons_none rest best h]; exact ih best
    | some e =>
      rw [selectTrack_cons_some rest best h]
      by_cases hle : (tks.getD i 0 + e.delta) % U32 ≤ best.1
      · rw [if_pos hle]
        exact le_trans (ih _) hle
      · rw [if_neg hle]
        exact ih best

/-- The final minimum is below the pending tick of every scanned
track. -/
theorem sel_min (ne : List (Option TrackEvent)) (tks : List Nat) :
    ∀ (idxs : List Nat) (best : Nat × Option Nat) (j t : Nat),
      j ∈ idxs → pendTick ne tks j = some t →
      (selectTrack ne tks idxs best).1 ≤ t := by
  intro idxs
  induction idxs with
  | nil => intro best j t hj _; exact absurd hj (List.not_mem_nil j)
  | cons i rest ih =>
    intro best j t hj ht
    rcases List.mem_cons.mp hj with hj | hj
    · subst hj
      cases h : ne.getD j none with
      | none => rw [pendTick_of_none h] at ht; exact absurd ht (by simp)
      | some e =>
        rw [pendTick_of_some _ h] at ht
        rw [selectTrack_cons_some rest best h]
        have ht2 : (tks.getD j 0 + e.delta) % U32 = t := by
          exact Option.some.inj ht
        by_cases hle : (tks.getD j 0 + e.delta) % U32 ≤ best.1
        · rw [if_pos hle]
          exact ht2 ▸ sel_fst_le ne tks rest _
        · rw [if_neg hle]
          have := sel_fst_le ne tks rest best
          omega
    · cases h : ne.getD i none with
      | none =>
        rw [selectTrack_cons_none rest best h]
        exact ih best j t hj ht
      | some e =>
        rw [selectTrack_cons_some rest best h]
        by_cases hle : (tks.getD i 0 + e.delta) % U32 ≤ best.1
        · rw [if_pos hle]; exact ih _ j t hj ht
        · rw [if_neg hle]; exact ih best j t hj ht

/-- The scan either keeps the initial best pair unchanged or selects a
scanned track whose pending tick equals the final minimum. -/
theorem sel_choice (ne : List (Option TrackEvent)) (tks : List Nat) :
    ∀ (idxs : List Nat) (best : Nat × Option Nat),
      ((selectTrack ne tks idxs best).2 = best.2 ∧
        (selectTrack ne tks idxs best).1 = best.1)
      ∨ ∃ i, i ∈ idxs ∧ (selectTrack ne tks idxs best).2 = some i ∧
          pendTick ne tks i = some (selectTrack ne tks idxs best).1 := by
  intro idxs
  induction idxs with
  | nil => intro best; left; rw [selectTrack_nil]; exact ⟨rfl, rfl⟩
  | cons i rest ih =>
    intro best
    cases h : ne.getD i none with
    | none =>
      rw [selectTrack_cons_none rest best h]
      rcases ih best with h1 | ⟨k, hk, h1, h2⟩
      · left; exact h1
      · right; exact ⟨k, List.mem_cons_of_mem i hk, h1, h2⟩
    | some e =>
      rw [selectTrack_cons_some rest best h]
      by_cases hle : (tks.getD i 0 + e.delta) % U32 ≤ best.1
      · rw [if_pos hle]
        rcases ih ((tks.getD i 0 + e.delta) % U32, some i) with ⟨h1, h2⟩ | ⟨k, hk, h1, h2⟩
        · right
          refine ⟨i, List.mem_cons_self i rest, h1, ?_⟩
          rw [h2]
          exact pendTick_of_some _ h
        · right; exact ⟨k, List.mem_cons_of_mem i hk, h1, h2⟩
      · rw [if_neg hle]
        rcases ih best with h1 | ⟨k, hk, h1, h2⟩
        · left; exact h1
        · right; exact ⟨k, List.mem_cons_of_mem i hk, h1, h2⟩

/-- Once the scan holds a selected track, it never returns to none. -/
theorem sel_ne_none (ne : List (Option TrackEvent)) (tks : List Nat)
    (idxs : List Nat) (bt k : Nat) :
    (selectTrack ne tks idxs (bt, some k)).2 ≠ none := by
  rcases sel_choice ne tks idxs (bt, some k) with ⟨h1, _⟩ | ⟨i, _, h1, _⟩ <;>
    simp [h1]

/-- Among all scanned tracks whose pending tick ties the final minimum,
the selected index is the largest: the source updates the running pair
on a non-strict comparison, so a later tied track wins. -/
theorem sel_tie (ne : List (Option TrackEvent)) (tks : List Nat) :
    ∀ (idxs : List Nat) (best : Nat × Option Nat) (j : Nat),
      idxs.Pairwise (· < ·) → j ∈ idxs →
      pendTick ne tks j = some (selectTrack ne tks idxs best).1 →
      ∃ k, (selectTrack ne tks idxs best).2 = some k ∧ j ≤ k := by
  intro idxs
  induction idxs with
  | nil => intro best j _ hj _; exact absurd hj (List.not_mem_nil j)
  | cons i rest ih =>
    intro best j hp hj hjt
    have hlt := List.pairwise_cons.mp hp
    rcases List.mem_cons.mp hj with hj | hj
    · subst hj
      cases h : ne.getD j none with
      | none => rw [pendTick_of_none h] at hjt; exact absurd hjt (by simp)
      | some e =>
        rw [pendTick_of_some _ h] at hjt
        rw [selectTrack_cons_some rest best h] at hjt ⊢
        by_cases hle : (tks.getD j 0 + e.delta) % U32 ≤ best.1
        · rw [if_pos hle] at hjt ⊢
          rcases sel_choice ne tks rest ((tks.getD j 0 + e.delta) % U32, some j)
            with ⟨h1, _⟩ | ⟨k, hk, h1, _⟩
          · exact ⟨j, h1, le_refl j⟩
          · exact ⟨k, h1, le_of_lt (hlt.1 k hk)⟩
        · rw [if_neg hle] at hjt ⊢
          have h2 := sel_fst_le ne tks rest best
          have h3 := Option.some.inj hjt
          omega
    · cases h : ne.getD i none with
      | none =>
        rw [selectTrack_cons_none rest best h] at hjt ⊢
        exact ih best j hlt.2 hj hjt
      | some e =>
        rw [selectTrack_cons_some rest best h] at hjt ⊢
        by_cases hle : (tks.getD i 0 + e.delta) % U32 ≤ best.1
        · rw [if_pos hle] at hjt ⊢
          exact ih _ j hlt.2 hj hjt
        · rw [if_neg hle] at hjt ⊢
          exact ih best j hlt.2 hj hjt

/-- If the scan selects no track, every scanned pending tick lies
strictly above the initial running minimum. -/
theorem sel_none (ne : List (Option TrackEvent)) (tks : List Nat) :
    ∀ (idxs : List Nat) (best : Nat × Option Nat),
      (selectTrack ne tks idxs best).2 = none →
      ∀ j t, j ∈ idxs → pendTick ne tks j = some t → best.1 < t := by
  intro idxs
  induction idxs with
  | nil => intro best _ j t hj _; exact absurd hj (List.not_mem_nil j)
  | cons i rest ih =>
    intro best hnone j t hj ht
    rcases List.mem_cons.mp hj with hj | hj
    · subst hj
      cases h : ne.getD j none with
      | none => rw [pendTick_of_none h] at ht; exact absurd ht (by simp)
      | some e =>
        rw [pendTick_of_some _ h] at ht
        rw [selectTrack_cons_some rest best h] at hnone
        have ht2 : (tks.getD j 0 + e.delta) % U32 = t := Option.some.inj ht
        by_cases hle : (tks.getD j 0 + e.delta) % U32 ≤ best.1
        · rw [if_pos hle] at hnone
          exact absurd hnone (sel_ne_none ne tks rest _ j)
        · rw [if_neg hle] at hnone
          omega
    · cases h : ne.getD i none with
      | none =>
        rw [selectTrack_cons_none rest best h] at hnone
        exact ih best hnone j t hj ht
      | some e =>
        rw [selectTrack_cons_some rest best h] at hnone
        by_cases hle : (tks.getD i 0 + e.delta) % U32 ≤ best.1
        · rw [if_pos hle] at hnone
          exact absurd hnone (sel_ne_none ne tks rest _ i)
        · rw [if_neg hle] at hnone
          exact ih best hnone j t hj ht

/-- If no scanned track has a pending event, the scan returns the
initial pair unchanged. -/
theorem sel_all_none (ne : List (Option TrackEvent)) (tks : List Nat) :
    ∀ (idxs : List Nat) (best : Nat × Option Nat),
      (∀ j, j ∈ idxs → ne.getD j none = none) →
      selectTrack ne tks idxs best = best := by
  intro idxs
  induction idxs with
  | nil => intro best _; rw [selectTrack_nil]
  | cons i rest ih =>
    intro best hall
    rw [selectTrack_cons_none rest best (hall i (List.mem_cons_self i rest))]
    exact ih best fun j hj => hall j (List.mem_cons_of_mem i hj)

/-- Characterization of a successful cache recomputation: the cached
pair names a real pending event, its tick is minimal over all pending
events, and among tracks tied at that tick the cached index is the
greatest. -/
theorem update_next_track_some (s : Tracks) (i tk : Nat)
    (h : (Tracks.update_next_track s).next_track = some (i, tk)) :
    i < s.tracks.length ∧
    pendTick s.next_event s.ticks i = some tk ∧
    (∀ j t, j < s.tracks.length →
      pendTick s.next_event s.ticks j = some t → tk ≤ t) ∧
    (∀ j, j < s.tracks.length →
      pendTick s.next_event s.ticks j = some tk → j ≤ i) := by
  simp only [Tracks.update_next_track] at h
  cases hri : (selectTrack s.next_event s.ticks
      (List.range s.tracks.length) (U32MAX, none)).2 with
  | none => rw [hri] at h; exact absurd h (by simp)
  | some i0 =>
    rw [hri] at h
    simp only [Option.map_some', Option.some.injEq, Prod.mk.injEq] at h
    obtain ⟨rfl, hrt⟩ := h
    have hchoice := sel_choice s.next_event s.ticks
      (List.range s.tracks.length) (U32MAX, none)
    rcases hchoice with ⟨h1, _⟩ | ⟨k, hk, h1, h2⟩
    · rw [hri] at h1; exact absurd h1 (by simp)
    · rw [hri] at h1
      have hki : k = i0 := (Option.some.inj h1).symm
      subst hki
      refine ⟨List.mem_range.mp hk, hrt ▸ h2, ?_, ?_⟩
      · intro j t hj ht
        have := sel_min s.next_event s.ticks (List.range s.tracks.length)
          (U32MAX, none) j t (List.mem_range.mpr hj) ht
        omega
      · intro j hj ht
        have := sel_tie s.next_event s.ticks (List.range s.tracks.length)
          (U32MAX, none) j (List.pairwise_lt_range _) (List.mem_range.mpr hj)
          (hrt ▸ ht)
        obtain ⟨k2, hk2, hjk⟩ := this
        rw [hri] at hk2
        exact le_of_le_of_eq hjk (Option.some.inj hk2).symm

/-- The recomputed cache is empty exactly when every track in range is
exhausted. -/
theorem update_next_track_none_iff (s : Tracks) :
    (Tracks.update_next_track s).next_track = none ↔
      ∀ i, i < s.tracks.length → s.next_event.getD i none = none := by
  constructor
  · intro h j hj
    simp only [Tracks.update_next_track] at h
    rw [Option.map_eq_none'] at h
    cases he : s.next_event.getD j none with
    | none => rfl
    | some e =>
      have hp := pendTick_of_some s.ticks he
      have h2 := sel_none s.next_event s.ticks (List.range s.tracks.length)
        (U32MAX, none) h j _ (List.mem_range.mpr hj) hp
      have h3 : (s.ticks.getD j 0 + e.delta) % U32 < U32 :=
        Nat.mod_lt _ (by norm_num [U32])
      unfold U32MAX at h2
      omega
  · intro h
    simp only [Tracks.update_next_track]
    rw [sel_all_none s.next_event s.ticks _ _
      (fun j hj => h j (List.mem_range.mp hj))]
    rfl

/-- Recomputing the cache establishes the cache invariant. -/
theorem wf_update_next_track (s : Tracks) :
    WF (Tracks.update_next_track s) := rfl

/-- Popping an event re-establishes the cache invariant (the pop ends
with a recomputation). -/
theorem wf_nextEv {s s1 : Tracks} {e : TrackEvent}
    (h : s.nextEv = some (e, s1)) : WF s1 := by
  unfold Tracks.nextEv at h
  cases hnt : s.next_track with
  | none => rw [hnt] at h; exact absurd h (by simp)
  | some p =>
    obtain ⟨i, tk⟩ := p
    rw [hnt] at h
    simp only [] at h
    cases hne : s.next_event.getD i none with
    | none => rw [hne] at h; exact absurd h (by simp)
    | some ev =>
      rw [hne] at h
      simp only [] at h
      simp only [Option.some.injEq, Prod.mk.injEq] at h
      obtain ⟨_, h2⟩ := h
      rw [← h2]
      exact wf_update_next_track _

/-! Behaviour of the next_midi_event loop. -/

/-- A Finished outcome leaves the scheduler with no cached track. -/
theorem aux_finished :
    ∀ (fuel : Nat) (s : Tracks) (t : Nat) (s1 : Tracks),
      nextMidiEventAux fuel s t = some (.Finished, s1) →
      s1.next_track = none := by
  intro fuel
  induction fuel with
  | zero => intro s t s1 h; exact absurd h (by simp [nextMidiEventAux])
  | succ n ih =>
    intro s t s1 h
    simp only [nextMidiEventAux] at h
    cases hnt : s.next_track with
    | none =>
      rw [hnt] at h
      simp only [Option.some.injEq, Prod.mk.injEq] at h
      rw [← h.2]
      exact hnt
    | some p =>
      obtain ⟨i, nt⟩ := p
      rw [hnt] at h
      simp only [] at h
      by_cases hlt : t < nt
      · rw [if_pos hlt] at h
        simp at h
      · rw [if_neg hlt] at h
        cases hne : s.nextEv with
        | none => rw [hne] at h; exact absurd h (by simp)
        | some pr =>
          obtain ⟨ev, s2⟩ := pr
          rw [hne] at h
          simp only [] at h
          cases hk : ev.kind with
          | Midi ch m => rw [hk] at h; simp at h
          | NonMidi => rw [hk] at h; simp only [] at h; exact ih s2 t s1 h

/-- With no cached track, next_midi_event returns Finished and leaves
the state untouched. -/
theorem next_midi_event_of_none (s : Tracks) (t : Nat)
    (h : s.next_track = none) :
    s.next_midi_event t = some (.Finished, s) := by
  unfold Tracks.next_midi_event
  simp only [nextMidiEventAux]
  rw [h]

/-- A Pending outcome always leaves a cached pending tick strictly
beyond the requested tick. -/
theorem aux_pending :
    ∀ (fuel : Nat) (s : Tracks) (t : Nat) (s1 : Tracks),
      nextMidiEventAux fuel s t = some (.Pending, s1) →
      ∃ i nt, s1.next_track = some (i, nt) ∧ t < nt := by
  intro fuel
  induction fuel with
  | zero => intro s t s1 h; exact absurd h (by simp [nextMidiEventAux])
  | succ n ih =>
    intro s t s1 h
    simp only [nextMidiEventAux] at h
    cases hnt : s.next_track with
    | none =>
      rw [hnt] at h
      simp at h
    | some p =>
      obtain ⟨i, nt⟩ := p
      rw [hnt] at h
      simp only [] at h
      by_cases hlt : t < nt
      · rw [if_pos hlt] at h
        simp only [Option.some.injEq, Prod.mk.injEq] at h
        exact ⟨i, nt, h.2 ▸ hnt, hlt⟩
      · rw [if_neg hlt] at h
        cases hne : s.nextEv with
        | none => rw [hne] at h; exact absurd h (by simp)
        | some pr =>
          obtain ⟨ev, s2⟩ := pr
          rw [hne] at h
          simp only [] at h
          cases hk : ev.kind with
          | Midi ch m => rw [hk] at h; simp at h
          | NonMidi => rw [hk] at h; simp only [] at h; exact ih s2 t s1 h

/-- An Event outcome always carries a MIDI event: non-MIDI events are
silently skipped by the loop. -/
theorem aux_event_midi :
    ∀ (fuel : Nat) (s : Tracks) (t : Nat) (e : TrackEvent) (s1 : Tracks),
      nextMidiEventAux fuel s t = some (.Event e, s1) →
      ∃ ch m, e.kind = .Midi ch m := by
  intro fuel
  induction fuel with
  | zero => intro s t e s1 h; exact absurd h (by simp [nextMidiEventAux])
  | succ n ih =>
    intro s t e s1 h
    simp only [nextMidiEventAux] at h
    cases hnt : s.next_track with
    | none =>
      rw [hnt] at h
      simp at h
    | some p =>
      obtain ⟨i, nt⟩ := p
      rw [hnt] at h
      simp only [] at h
      by_cases hlt : t < nt
      · rw [if_pos hlt] at h
        simp at h
      · rw [if_neg hlt] at h
        cases hne : s.nextEv with
        | none => rw [hne] at h; exact absurd h (by simp)
        | some pr =>
          obtain ⟨ev, s2⟩ := pr
          rw [hne] at h
          simp only [] at h
          cases hk : ev.kind with
          | Midi ch m =>
            rw [hk] at h
            simp only [] at h
            simp only [Option.some.injEq, Prod.mk.injEq,
              NextEvent.Event.injEq] at h
            exact ⟨ch, m, h.1 ▸ hk⟩
          | NonMidi => rw [hk] at h; exact ih s2 t e s1 h

/-- With a cached tick beyond the requested one, next_midi_event
returns Pending immediately, consuming nothing. -/
theorem next_midi_event_pending_immediate (s : Tracks) (t i nt : Nat)
    (h : s.next_track = some (i, nt)) (hlt : t < nt) :
    s.next_midi_event t = some (.Pending, s) := by
  unfold Tracks.next_midi_event
  simp only [nextMidiEventAux]
  rw [h]
  simp [hlt]

/-- An Event outcome means the pop condition held on entry: the cached
minimum tick was at or before the requested tick. -/
theorem next_midi_event_event_entry (s : Tracks) (t : Nat)
    (e : TrackEvent) (s1 : Tracks)
    (h : s.next_midi_event t = some (.Event e, s1)) :
    ∃ i nt, s.next_track = some (i, nt) ∧ nt ≤ t := by
  unfold Tracks.next_midi_event at h
  simp only [nextMidiEventAux] at h
  cases hnt : s.next_track with
  | none => rw [hnt] at h; simp at h
  | some p =>
    obtain ⟨i, nt⟩ := p
    by_cases hlt : t < nt
    · rw [hnt] at h
      simp only [] at h
      rw [if_pos hlt] at h
      simp at h
    · exact ⟨i, nt, rfl, by omega⟩

/-! Claim theorems about the scheduler. -/

/-- C7: once the scheduler's advance operation has returned Finished,
every subsequent call, for any requested tick, also returns Finished
with the state unchanged: track exhaustion is a terminal, idempotent
state. -/
theorem C7_finished_terminal (s : Tracks) (t : Nat) (s1 : Tracks)
    (h : s.next_midi_event t = some (.Finished, s1)) (t2 : Nat) :
    s1.next_midi_event t2 = some (.Finished, s1) :=
  next_midi_event_of_none s1 t2 (aux_finished (s.size + 1) s t s1 h)

/-- Witness for C7 at a concrete exhausted scheduler state. -/
theorem C7_finished_terminal_witness :
    Tracks.next_midi_event ⟨[], [none, none, none], [0, 0, 0], none⟩ 7
      = some (.Finished, ⟨[], [none, none, none], [0, 0, 0], none⟩) :=
  C7_finished_terminal ⟨[], [none, none, none], [0, 0, 0], none⟩ 0
    ⟨[], [none, none, none], [0, 0, 0], none⟩ (by decide) 7

/-- C3: for every requested tick t, the advance operation returns
Pending, consuming no event, exactly when the minimum pending tick
exceeds t (immediately when the cached minimum does, and any Pending
outcome leaves a pending tick beyond t); it returns Finished exactly
when all tracks are exhausted (under the cache invariant the empty
cache means every track's pending slot is empty); and any returned
event is a MIDI event popped because the minimum pending tick was at or
before t — non-MIDI events are silently skipped. -/
theorem C3_advance_to (s : Tracks) (t : Nat) :
    (∀ i nt, s.next_track = some (i, nt) → t < nt →
      s.next_midi_event t = some (.Pending, s)) ∧
    (∀ s1, s.next_midi_event t = some (.Pending, s1) →
      ∃ i nt, s1.next_track = some (i, nt) ∧ t < nt) ∧
    (s.next_track = none → s.next_midi_event t = some (.Finished, s)) ∧
    (WF s → (s.next_track = none ↔
      ∀ i, i < s.tracks.length → s.next_event.getD i none = none)) ∧
    (∀ e s1, s.next_midi_event t = some (.Event e, s1) →
      (∃ ch m, e.kind = .Midi ch m) ∧
      ∃ i nt, s.next_track = some (i, nt) ∧ nt ≤ t) := by
  refine ⟨?_, ?_, ?_, ?_, ?_⟩
  · intro i nt h hlt
    exact next_midi_event_pending_immediate s t i nt h hlt
  · intro s1 h
    exact aux_pending (s.size + 1) s t s1 h
  · intro h
    exact next_midi_event_of_none s t h
  · intro hwf
    rw [hwf]
    exact update_next_track_none_iff s
  · intro e s1 h
    exact ⟨aux_event_midi (s.size + 1) s t e s1 h,
      next_midi_event_event_entry s t e s1 h⟩

/-- Witness for C3's immediate-Pending clause at a concrete state whose
earliest pending tick (5) exceeds the requested tick (0). -/
theorem C3_advance_to_witness :
    Tracks.next_midi_event
      ⟨[[]], [some ⟨5, .Midi 0 (.NoteOn 60 100)⟩, none, none], [0, 0, 0],
        some (0, 5)⟩ 0
      = some (.Pending,
        ⟨[[]], [some ⟨5, .Midi 0 (.NoteOn 60 100)⟩, none, none], [0, 0, 0],
          some (0, 5)⟩) :=
  (C3_advance_to
    ⟨[[]], [some ⟨5, .Midi 0 (.NoteOn 60 100)⟩, none, none], [0, 0, 0],
      some (0, 5)⟩ 0).1 0 5 rfl (by decide)

/-- Two-track scheduler state whose tracks both have a pending event
due at absolute tick 0; the cached pair is the one the recomputation
produces, namely track 1. -/
def tieState : Tracks :=
  ⟨[[], []],
   [some ⟨0, .Midi 0 (.NoteOn 60 100)⟩, some ⟨0, .Midi 1 (.NoteOn 67 100)⟩,
    none],
   [0, 0, 0], some (1, 0)⟩

/-- C1 counterexample: in tieState both track 0 and track 1 have
pending events due at tick 0 and the cache invariant holds, yet the
next event consumed is track 1's (the NoteOn on channel 1), not track
0's: events with equal absolute ticks are NOT returned in ascending
track-index order. -/
theorem C1_counterexample :
    pendTick tieState.next_event tieState.ticks 0 = some 0 ∧
    pendTick tieState.next_event tieState.ticks 1 = some 0 ∧
    WF tieState ∧
    (Tracks.next_midi_event tieState 0).map Prod.fst =
      some (.Event ⟨0, .Midi 1 (.NoteOn 67 100)⟩) := by
  decide

/-- C1 amended: under the cache invariant, the cached pair (i, tk)
marks a real pending event whose absolute tick tk is minimal over all
tracks, and among all tracks whose pending events tie at tk the
serviced index i is the HIGHEST (the source's non-strict comparison
lets a later tied track overwrite an earlier one), and the next event
consumed is track i's pending event. -/
theorem C1_tie_break_highest (s : Tracks) (i tk : Nat) (hwf : WF s)
    (h : s.next_track = some (i, tk)) :
    pendTick s.next_event s.ticks i = some tk ∧
    (∀ j t, j < s.tracks.length →
      pendTick s.next_event s.ticks j = some t → tk ≤ t) ∧
    (∀ j, j < s.tracks.length →
      pendTick s.next_event s.ticks j = some tk → j ≤ i) ∧
    (∀ e, s.next_event.getD i none = some e →
      ∃ s1, s.nextEv = some (e, s1)) := by
  have h2 : (Tracks.update_next_track s).next_track = some (i, tk) := by
    rw [← hwf]; exact h
  obtain ⟨_, hpend, hmin, htie⟩ := update_next_track_some s i tk h2
  refine ⟨hpend, hmin, htie, ?_⟩
  intro e he
  unfold Tracks.nextEv
  rw [h]
  simp only []
  rw [he]
  exact ⟨_, rfl⟩

/-- Witness for C1's amended statement at the concrete tied state: the
minimum tick is 0 and the serviced track is index 1, the highest tied
index. -/
theorem C1_tie_break_highest_witness :
    pendTick tieState.next_event tieState.ticks 1 = some 0 ∧
    (∀ j t, j < tieState.tracks.length →
      pendTick tieState.next_event tieState.ticks j = some t → 0 ≤ t) ∧
    (∀ j, j < tieState.tracks.length →
      pendTick tieState.next_event tieState.ticks j = some 0 → j ≤ 1) ∧
    (∀ e, tieState.next_event.getD 1 none = some e →
      ∃ s1, tieState.nextEv = some (e, s1)) :=
  C1_tie_break_highest tieState 1 0 (by decide) rfl

/-- C10: the scheduler construction reads only the first MAX_TRACKS = 3
tracks of the event file: constructing from the full track list yields
exactly the same state as constructing from its first three tracks, so
the events of any later track are never scheduled, and the number of
stored track iterators is min 3 (number of tracks in the file). -/
theorem C10_max_tracks (tl : List (List TrackEvent)) :
    Tracks.new tl = Tracks.new (tl.take MAX_TRACKS) ∧
    (Tracks.new tl).tracks.length = min MAX_TRACKS tl.length ∧
    MAX_TRACKS = 3 := by
  refine ⟨?_, ?_, rfl⟩
  · simp [Tracks.new, List.take_take]
  · simp [Tracks.new]

/-! Voice table and MIDI event handling (midi_player.rs, AppState). -/

/-- Number of voice slots: the notes array has 4 entries and both
handlers assert channel < 4. -/
def MAX_CHANNELS : Nat := 4

/-- AppState::handle_note_on: assert the channel bound, then set the
slot to the key.  none models the assertion panic on an out-of-range
channel; the bound is checked before any slot access. -/
def handle_note_on (notes : List (Option Nat)) (channel key : Nat) :
    Option (List (Option Nat)) :=
  if channel < MAX_CHANNELS then some (notes.set channel (some key))
  else none

/-- AppState::handle_note_off: assert the channel bound, then clear the
slot. -/
def handle_note_off (notes : List (Option Nat)) (channel key : Nat) :
    Option (List (Option Nat)) :=
  if channel < MAX_CHANNELS then some (notes.set channel none) else none

/-- AppState::handle_midi_event restricted to its effect on the voice
table: a NoteOff clears the channel's slot, a NoteOn with velocity zero
is handled by the very same handler as a NoteOff (the source's guard
vel == 0 precedes the general NoteOn arm), any other NoteOn sets the
slot, and every other event kind is ignored.  The hardware-facing
update_seq call the handlers also make is modelled separately. -/
def handle_midi_event (notes : List (Option Nat)) (e : TrackEvent) :
    Option (List (Option Nat)) :=
  match e.kind with
  | .Midi channel (.NoteOff key _) => handle_note_off notes channel key
  | .Midi channel (.NoteOn key 0) => handle_note_off notes channel key
  | .Midi channel (.NoteOn key _) => handle_note_on notes channel key
  | _ => some notes

/-- C5: for every note-on or note-off delivered to the voice table, if
the channel index is below MAX_CHANNELS = 4 the corresponding slot is
updated and no assertion fires, and if the channel index is 4 or more
the operation is a fatal assertion failure (modelled as none) — the
bound is checked before the slot is accessed. -/
theorem C5_channel_bound (notes : List (Option Nat)) (channel key : Nat) :
    (channel < MAX_CHANNELS →
      handle_note_on notes channel key =
        some (notes.set channel (some key)) ∧
      handle_note_off notes channel key =
        some (notes.set channel none)) ∧
    (MAX_CHANNELS ≤ channel →
      handle_note_on notes channel key = none ∧
      handle_note_off notes channel key = none) := by
  constructor
  · intro h
    exact ⟨by simp [handle_note_on, h], by simp [handle_note_off, h]⟩
  · intro h
    have h2 : ¬ channel < MAX_CHANNELS := by omega
    exact ⟨by simp [handle_note_on, h2], by simp [handle_note_off, h2]⟩

/-- Witness for C5 at channel 2 (in range) and channel 9 (out of
range). -/
theorem C5_channel_bound_witness :
    (handle_note_on [none, none, none, none] 2 60 =
      some [none, none, some 60, none] ∧
     handle_note_off [none, none, none, none] 2 60 =
      some [none, none, none, none]) ∧
    (handle_note_on [none, none, none, none] 9 60 = none ∧
     handle_note_off [none, none, none, none] 9 60 = none) :=
  ⟨(C5_channel_bound [none, none, none, none] 2 60).1 (by decide),
   (C5_channel_bound [none, none, none, none] 9 60).2 (by decide)⟩

/-- C8: a note-on carrying velocity zero is interpreted exactly as a
note-off for the same channel and key: the dispatcher maps it to the
identical handler call as an explicit note-off, and for an in-range
channel the voice-table slot is cleared. -/
theorem C8_velocity_zero_is_note_off (notes : List (Option Nat))
    (channel key vel d1 d2 : Nat) :
    handle_midi_event notes ⟨d1, .Midi channel (.NoteOn key 0)⟩ =
      handle_midi_event notes ⟨d2, .Midi channel (.NoteOff key vel)⟩ ∧
    handle_midi_event notes ⟨d1, .Midi channel (.NoteOn key 0)⟩ =
      handle_note_off notes channel key ∧
    (channel < MAX_CHANNELS →
      handle_midi_event notes ⟨d1, .Midi channel (.NoteOn key 0)⟩ =
        some (notes.set channel none)) := by
  refine ⟨rfl, rfl, ?_⟩
  intro h
  simp [handle_midi_event, handle_note_off, h]

/-- Witness for C8: on channel 0 with a sounding note, a zero-velocity
note-on clears the slot exactly as an explicit note-off does. -/
theorem C8_velocity_zero_is_note_off_witness :
    handle_midi_event [some 60, none, none, none]
        ⟨0, .Midi 0 (.NoteOn 60 0)⟩ =
      some [none, none, none, none] :=
  (C8_velocity_zero_is_note_off [some 60, none, none, none] 0 60 64 0 0).2.2
    (by decide)

/-! Exact idealization of the f32 pitch arithmetic.  The sources work
with two f32 constants, BASE_FREQ = 261.62558 (middle C) and
EXP2_ONE_TWELFTH = 1.0594631 (the twelfth root of two), build the
equal-tempered frequency of a key by multiplying or dividing BASE_FREQ
by EXP2_ONE_TWELFTH |key - 60| times, and truncate ratios of such
quantities to unsigned integers.  Here the two literals are carried as
exact fractions (BASE_NUM / BASE_DEN and E_NUM / E_DEN), the repeated
multiplication becomes an exact power, and frequencies are represented
by explicit numerator / denominator pairs so that the final truncating
cast is exact natural division. -/

/-- Numerator of the f32 literal 261.62558 (both files, BASE_FREQ). -/
def BASE_NUM : Nat := 26162558

/-- Denominator of the f32 literal 261.62558. -/
def BASE_DEN : Nat := 10 ^ 5

/-- Numerator of the f32 literal 1.0594631 (both files,
EXP2_ONE_TWELFTH). -/
def E_NUM : Nat := 10594631

/-- Denominator of the f32 literal 1.0594631. -/
def E_DEN : Nat := 10 ^ 7

/-- Numerator of the equal-tempered frequency
BASE_FREQ * EXP2_ONE_TWELFTH ^ (note - 60) as an exact fraction. -/
def freqNum (note : Nat) : Nat :=
  if 60 ≤ note then BASE_NUM * E_NUM ^ (note - 60)
  else BASE_NUM * E_DEN ^ (60 - note)

/-- Denominator of the equal-tempered frequency of a note. -/
def freqDen (note : Nat) : Nat :=
  if 60 ≤ note then BASE_DEN * E_DEN ^ (note - 60)
  else BASE_DEN * E_NUM ^ (60 - note)

/-- PWM clock frequency of the midi player: prescaler DIV_32 gives
2^(24-5) Hz (midi_player.rs PWM_CLOCK_FREQ). -/
def PWM_CLOCK_FREQ_MIDI : Nat := 2 ^ 19

/-- note_to_buf (midi_player.rs): the PWM countertop is the key's
frequency divided into the PWM clock, truncated (u16 casts of f32
saturate, hence the clamp at 65535); the 4-word PWM waveform buffer
holds three half-duty compare values and the countertop. -/
def note_to_buf (key : Nat) : List Nat :=
  let countertop : Nat :=
    min (PWM_CLOCK_FREQ_MIDI * freqDen key / freqNum key) 65535
  let half_duty : Nat := countertop / 2
  [half_duty, half_duty, half_duty, countertop]

/-- Command AppState::update_seq issues to the channel's PWM
peripheral. -/
inductive SeqCmd where
  | start
  | stop
deriving DecidableEq, Repr

/-- AppState::update_seq for one channel: with a sounding note the
channel's 4-word buffer is overwritten via note_to_buf and the PWM
sequence is started; with no note the PWM sequence is stopped and the
buffer is left untouched. -/
def update_seq (note : Option Nat) (buf : List Nat) : List Nat × SeqCmd :=
  match note with
  | some key => (note_to_buf key, .start)
  | none => (buf, .stop)

/-- C2 counterexample: with no active note and the channel buffer still
holding the previous note's words (5,5,5,7), update_seq leaves the
buffer exactly as it was; since it holds two distinct values, its
samples are not all equal to any single neutral/silent duty value.  The
code stops the PWM sequence instead of filling the buffer with a
neutral value. -/
theorem C2_counterexample :
    update_seq none [5, 5, 5, 7] = ([5, 5, 5, 7], .stop) ∧
    ¬ ∃ v, (update_seq none [5, 5, 5, 7]).1 = [v, v, v, v] := by
  refine ⟨rfl, ?_⟩
  rintro ⟨v, hv⟩
  simp [update_seq] at hv
  omega

/-- C2 amended: when no note is active on a channel, the player does
not fill that channel's buffer at all — update_seq returns the buffer
unchanged and issues a stop command for the channel's PWM sequence, so
no waveform is computed and no division by a zero period can occur. -/
theorem C2_silence_stops_sequence (buf : List Nat) :
    update_seq none buf = (buf, .stop) := rfl

/-! Double-buffer completion handlers. -/

/-- The actions a buffer-completion interrupt handler performs, in
program order. -/
inductive PwmAction where
  | clearEvent (k : Nat)
  | startSeq (k : Nat)
  | fillBuffer (k : Nat)
deriving DecidableEq, Repr

/-- The PWM0 interrupt handler of pcm_player.rs: if buffer 0's seqend
event is set, clear it, command buffer 1 to start streaming, then
refill buffer 0; then likewise (no early return) for buffer 1 with the
roles swapped. -/
def pwm0Handler (e0 e1 : Bool) : List PwmAction :=
  (if e0 then [.clearEvent 0, .startSeq 1, .fillBuffer 0] else []) ++
  (if e1 then [.clearEvent 1, .startSeq 0, .fillBuffer 1] else [])

/-- App::handle_pwm_seqend of tone_generator.rs: the same servicing,
but with an early return after the first flag handled, so buffer 1's
flag is only read (observed) when buffer 0's flag is clear. -/
def handle_pwm_seqend (e0 e1 : Bool) : List PwmAction :=
  if e0 then [.clearEvent 0, .startSeq 1, .fillBuffer 0]
  else if e1 then [.clearEvent 1, .startSeq 0, .fillBuffer 1]
  else []

/-- Index of the first occurrence of an action in a trace (the trace
length when absent). -/
def posOf (a : PwmAction) : List PwmAction → Nat
  | [] => 0
  | x :: xs => if x = a then 0 else posOf a xs + 1

/-- Action a occurs in the trace and strictly before action b. -/
def seqBefore (l : List PwmAction) (a b : PwmAction) : Prop :=
  a ∈ l ∧ b ∈ l ∧ posOf a l < posOf b l

instance (l : List PwmAction) (a b : PwmAction) :
    Decidable (seqBefore l a b) := by
  unfold seqBefore; infer_instance

/-- C4: in both buffer-completion handlers, whenever buffer k's
completion event is observed (its flag read as set), the
start-streaming command for the other buffer is issued strictly before
buffer k is refilled, and the refill of buffer k happens within the
same invocation's action trace (synchronously).  In the tone-generator
handler, buffer 1's flag is observed only when buffer 0's flag is
clear because of its early return. -/
theorem C4_start_other_then_refill (e0 e1 : Bool) :
    (e0 = true →
      seqBefore (pwm0Handler e0 e1) (.startSeq 1) (.fillBuffer 0) ∧
      seqBefore (handle_pwm_seqend e0 e1) (.startSeq 1) (.fillBuffer 0)) ∧
    (e1 = true →
      seqBefore (pwm0Handler e0 e1) (.startSeq 0) (.fillBuffer 1)) ∧
    (e0 = false → e1 = true →
      seqBefore (handle_pwm_seqend e0 e1) (.startSeq 0) (.fillBuffer 1)) := by
  cases e0 <;> cases e1 <;> decide

/-- Witness for C4 with buffer 0's completion event set: both handlers
start buffer 1's streaming before refilling buffer 0. -/
theorem C4_start_other_then_refill_witness :
    seqBefore (pwm0Handler true false) (.startSeq 1) (.fillBuffer 0) ∧
    seqBefore (handle_pwm_seqend true false) (.startSeq 1) (.fillBuffer 0) :=
  (C4_start_other_then_refill true false).1 rfl

/-! Waveform synthesis (tone_generator.rs, NoteGen). -/

/-- Sample rate of the tone generator (tone_generator.rs
SAMPLE_RATE). -/
def SAMPLE_RATE : Nat := 44000

/-- Size of each of the two sample buffers (tone_generator.rs
BUFFER_SIZE). -/
def BUFFER_SIZE : Nat := 64

/-- NoteGen::period: the note's period in samples, the truncated ratio
of the sample rate to the note's equal-tempered frequency
(NoteGen::freq), computed exactly on the frequency's numerator and
denominator. -/
def notePeriod (note : Nat) : Nat :=
  SAMPLE_RATE * freqDen note / freqNum note

/-- Mutable state of the tone generator (struct NoteGen without its
sample buffers, which fill_buffer returns explicitly). -/
structure NoteGen where
  note : Nat
  volume : Nat
  offset : Nat
deriving DecidableEq, Repr

/-- NoteGen::fill_buffer, generalized to an arbitrary buffer length L
and parameterized by the per-sample amplitude pipeline: for each buffer
index i the source computes the phase numerator (offset + i) % period
(with the period forced to at least 1) and maps it through a fixed f32
pipeline — sine of the phase, scaled by volume / 127 and rescaled to
the PWM counter range — which is a fixed function of the volume, the
period and the phase numerator, abstracted here as sample.  The cursor
then advances by the buffer length modulo the period. -/
def NoteGen.fill_buffer (sample : Nat → Nat → Nat → Nat) (g : NoteGen)
    (L : Nat) : List Nat × NoteGen :=
  ((List.range L).map fun i =>
      sample g.volume (max (notePeriod g.note) 1)
        ((g.offset + i) % max (notePeriod g.note) 1),
   { g with offset := (g.offset + L) % max (notePeriod g.note) 1 })

/-- C6: with no note change, filling a buffer of length L advances the
cursor from c to (c + L) mod p, p being the note's period clamped to at
least 1 exactly as in the source, and filling two consecutive buffers
of length L from the same starting state produces samples identical to
one buffer of length 2L filled in a single call, ending in the same
state (phase continuity / composability across buffer boundaries). -/
theorem C6_fill_buffer_compose (sample : Nat → Nat → Nat → Nat)
    (g : NoteGen) (L : Nat) :
    (g.fill_buffer sample L).2.offset =
      (g.offset + L) % max (notePeriod g.note) 1 ∧
    (g.fill_buffer sample L).1 ++
      ((g.fill_buffer sample L).2.fill_buffer sample L).1 =
      (g.fill_buffer sample (L + L)).1 ∧
    ((g.fill_buffer sample L).2.fill_buffer sample L).2 =
      (g.fill_buffer sample (L + L)).2 := by
  refine ⟨rfl, ?_, ?_⟩
  · simp only [NoteGen.fill_buffer]
    rw [List.range_add, List.map_append, List.map_map]
    congr 1
    apply List.map_congr_left
    intro i _
    simp only [Function.comp_apply]
    congr 1
    rw [Nat.mod_add_mod]
    congr 1
    omega
  · simp only [NoteGen.fill_buffer]
    congr 1
    rw [Nat.mod_add_mod]
    congr 1
    omega

/-- C9: one octave halves the synthesis period: for every key k with
k + 12 still in MIDI range (k + 12 ≤ 127), the period of k + 12 differs
from half the period of k by at most one sample — the tolerance the
integer truncations admit; in the rational idealization of the f32
arithmetic, EXP2_ONE_TWELFTH ^ 12 is within float tolerance of exactly
2, so period(k + 12) ≈ period(k) / 2. -/
theorem C9_octave_halves_period (k : Nat) (h : k + 12 ≤ 127) :
    notePeriod k / 2 ≤ notePeriod (k + 12) + 1 ∧
    notePeriod (k + 12) ≤ notePeriod k / 2 + 1 := by
  have hb : ∀ k2, k2 < 116 →
      notePeriod k2 / 2 ≤ notePeriod (k2 + 12) + 1 ∧
      notePeriod (k2 + 12) ≤ notePeriod k2 / 2 + 1 := by decide
  exact hb k (by omega)

/-- Witness for C9 one octave above middle C: period(60) = 168 and
period(72) = 84. -/
theorem C9_octave_halves_period_witness :
    notePeriod 60 / 2 ≤ notePeriod 72 + 1 ∧
    notePeriod 72 ≤ notePeriod 60 / 2 + 1 :=
  C9_octave_halves_period 60 (by decide)

end Microbity
